import Mathlib

/-!  Verification of the manta clustering module (manta/cluster.py).

Graph model: nodes are identified with their matrix indices 0..n-1, so the
adj_index / rev_index maps built in `cluster_graph` are the identity and a
cluster assignment is a plain list indexed by node.  Each undirected edge is
stored once, in a fixed orientation, and `weight u v` returns the weight
attribute of the stored edge (u, v); real-valued weights and scores are
modeled by rationals.  -/

namespace Manta

/-- Least value of a list of rationals (`np.min`); 0 for the empty list,
which `np.min` rejects. -/
def listMin : List ℚ → ℚ
  | [] => 0
  | [x] => x
  | x :: y :: t => min x (listMin (y :: t))

/-- Index of the first occurrence of the least value (`np.argmin`);
0 for the empty list, which `np.argmin` rejects. -/
def argminIdx : List ℚ → ℕ
  | [] => 0
  | [_] => 0
  | x :: y :: t => if x ≤ listMin (y :: t) then 0 else argminIdx (y :: t) + 1

/-- A weighted undirected graph in the shape `cluster.py` consumes:
`n` nodes named 0..n-1, each edge listed once, and a weight lookup. -/
structure Graph where
  n : ℕ
  edges : List (ℕ × ℕ)
  weight : ℕ → ℕ → ℚ

/-- The per-edge unit `1/len(graph.edges)` from `sparsity_score` (line 199).
In ℚ the empty-edge case yields the junk value 0 instead of Python's
ZeroDivisionError; `sparsity_scoreChecked` records the fault. -/
def cutScore (g : Graph) : ℚ := 1 / (g.edges.length : ℚ)

/-- Edges of the induced subgraph of cluster `cid`: both endpoints are at a
position of the assignment holding `cid` (lines 204-207 of cluster.py). -/
def subgraphEdges (g : Graph) (c : List ℕ) (cid : ℕ) : List (ℕ × ℕ) :=
  g.edges.filter fun e => (c.get? e.1 == some cid) && (c.get? e.2 == some cid)

/-- The `edges` list accumulated over `set(clusters)` in `sparsity_score`:
all edges kept inside some cluster. -/
def insideEdges (g : Graph) (c : List ℕ) : List (ℕ × ℕ) :=
  c.dedup.flatMap (subgraphEdges g c)

/-- The `cuts` list: edges of the graph found in no induced subgraph, with the
swapped-orientation guard of line 218. -/
def cutEdges (g : Graph) (c : List ℕ) : List (ℕ × ℕ) :=
  g.edges.filter fun e =>
    !(decide (e ∈ insideEdges g c) || decide ((e.2, e.1) ∈ insideEdges g c))

/-- `sparsity_score` (cluster.py lines 175-227): negative intra-cluster edges
and positive cut edges add the per-edge unit, the rest subtract it. -/
def sparsity_score (g : Graph) (c : List ℕ) : ℚ :=
  ((insideEdges g c).map fun e =>
      if g.weight e.1 e.2 < 0 then cutScore g else -cutScore g).sum
  + ((cutEdges g c).map fun e =>
      if 0 < g.weight e.1 e.2 then cutScore g else -cutScore g).sum

/-- Whether both endpoints of `e` carry the same cluster id (both positions
valid in the assignment). -/
def isInside (c : List ℕ) (e : ℕ × ℕ) : Bool :=
  (c.get? e.1).isSome && (c.get? e.1 == c.get? e.2)

/-- The single signed term an edge contributes to the sparsity score. -/
def edgeTerm (g : Graph) (c : List ℕ) (e : ℕ × ℕ) : ℚ :=
  if isInside c e then
    (if g.weight e.1 e.2 < 0 then cutScore g else -cutScore g)
  else
    (if 0 < g.weight e.1 e.2 then cutScore g else -cutScore g)

/-- Python's `1/len(graph.edges)` raises ZeroDivisionError on a graph without
edges; the fallible entry point returns `none` there. -/
def sparsity_scoreChecked (g : Graph) (c : List ℕ) : Option ℚ :=
  if g.edges.length = 0 then none else some (sparsity_score g c)

lemma sum_map_zero {α : Type} (l : List α) : (l.map fun _ => (0 : ℚ)).sum = 0 := by
  induction l with
  | nil => simp
  | cons a t ih => simp [ih]

lemma sum_map_add {α : Type} (f h : α → ℚ) (l : List α) :
    (l.map fun e => f e + h e).sum = (l.map f).sum + (l.map h).sum := by
  induction l with
  | nil => simp
  | cons a t ih => simp [ih]; ring

lemma sum_map_filter {α : Type} (p : α → Bool) (f : α → ℚ) (l : List α) :
    ((l.filter p).map f).sum = (l.map fun e => if p e then f e else 0).sum := by
  induction l with
  | nil => simp
  | cons a t ih =>
    by_cases h : p a
    · simp [List.filter_cons, h, ih]
    · simp [List.filter_cons, h, ih]

lemma bind_map_sum {α β : Type} (f : β → List α) (g : α → ℚ) (l : List β) :
    ((l.flatMap f).map g).sum = (l.map fun b => ((f b).map g).sum).sum := by
  induction l with
  | nil => simp
  | cons a t ih => simp [ih]

lemma sum_map_sum_comm {α β : Type} (l : List β) (t : List α) (F : β → α → ℚ) :
    (l.map fun b => (t.map (F b)).sum).sum
      = (t.map fun a => (l.map fun b => F b a).sum).sum := by
  induction l with
  | nil => simp [sum_map_zero]
  | cons b l ih =>
    simp only [List.map_cons, List.sum_cons, ih, ← sum_map_add]

lemma uniq_sum (q : ℕ → Bool) (t : ℚ) (huniq : ∀ a b, q a = true → q b = true → a = b) :
    ∀ cids : List ℕ, cids.Nodup →
      (cids.map fun c => if q c then t else 0).sum = if cids.any q then t else 0 := by
  intro cids
  induction cids with
  | nil => simp
  | cons c cs ih =>
    intro hnd
    rcases List.nodup_cons.mp hnd with ⟨hc, hcs⟩
    by_cases h : q c = true
    · have hz : ∀ x ∈ cs.map fun c' => if q c' then t else 0, x = 0 := by
        intro x hx
        rcases List.mem_map.mp hx with ⟨c', hc', rfl⟩
        by_cases h' : q c' = true
        · exact absurd (huniq c' c h' h ▸ hc') hc
        · simp [h']
      simp [h, List.sum_eq_zero hz]
    · have h' : q c = false := by simpa using h
      simp [h', ih hcs]

lemma isInside_swap (c : List ℕ) (e : ℕ × ℕ) :
    isInside c (e.2, e.1) = isInside c e := by
  unfold isInside
  rw [Bool.eq_iff_iff]
  cases h1 : c.get? e.1 <;> cases h2 : c.get? e.2 <;> simp [h1, h2]
  exact ⟨fun h => h.symm, fun h => h.symm⟩

lemma mem_insideEdges {g : Graph} {c : List ℕ} {e : ℕ × ℕ} :
    e ∈ insideEdges g c ↔ e ∈ g.edges ∧ isInside c e = true := by
  constructor
  · intro h
    rcases List.mem_flatMap.mp h with ⟨cid, _, hmem⟩
    rcases List.mem_filter.mp hmem with ⟨he, hp⟩
    rw [Bool.and_eq_true] at hp
    have h1 : c.get? e.1 = some cid := by simpa using hp.1
    have h2 : c.get? e.2 = some cid := by simpa using hp.2
    refine ⟨he, ?_⟩
    unfold isInside
    rw [h1, h2]
    simp
  · rintro ⟨he, hin⟩
    unfold isInside at hin
    rw [Bool.and_eq_true] at hin
    rcases Option.isSome_iff_exists.mp hin.1 with ⟨a, h1⟩
    have h2 : c.get? e.2 = some a := by
      have heq := hin.2
      rw [h1] at heq
      exact (beq_iff_eq.mp heq).symm
    apply List.mem_flatMap.mpr
    refine ⟨a, ?_, ?_⟩
    · exact List.mem_dedup.mpr (List.get?_mem h1)
    · refine List.mem_filter.mpr ⟨he, ?_⟩
      rw [List.get?_eq_getElem?] at h1 h2
      simp [h1, h2]

lemma any_dedup_isInside (c : List ℕ) (e : ℕ × ℕ) :
    (c.dedup.any fun cid => (c.get? e.1 == some cid) && (c.get? e.2 == some cid))
      = isInside c e := by
  cases h : isInside c e
  · apply Bool.eq_false_iff.mpr
    intro hany
    rcases List.any_eq_true.mp hany with ⟨cid, _, hp⟩
    rw [Bool.and_eq_true] at hp
    have h1 : c.get? e.1 = some cid := by simpa using hp.1
    have h2 : c.get? e.2 = some cid := by simpa using hp.2
    have hT : isInside c e = true := by unfold isInside; rw [h1, h2]; simp
    rw [h] at hT
    exact Bool.false_ne_true hT
  · apply List.any_eq_true.mpr
    unfold isInside at h
    rw [Bool.and_eq_true] at h
    rcases Option.isSome_iff_exists.mp h.1 with ⟨a, h1⟩
    have h2 : c.get? e.2 = some a := by
      have heq := h.2
      rw [h1] at heq
      exact (beq_iff_eq.mp heq).symm
    refine ⟨a, List.mem_dedup.mpr (List.get?_mem h1), ?_⟩
    rw [List.get?_eq_getElem?] at h1 h2
    simp [h1, h2]

lemma inside_sum (g : Graph) (c : List ℕ) (F : ℕ × ℕ → ℚ) :
    ((insideEdges g c).map F).sum
      = (g.edges.map fun e => if isInside c e then F e else 0).sum := by
  unfold insideEdges
  rw [bind_map_sum]
  have hstep : (c.dedup.map fun cid => ((subgraphEdges g c cid).map F).sum)
      = c.dedup.map fun cid =>
          (g.edges.map fun e =>
            if (c.get? e.1 == some cid) && (c.get? e.2 == some cid) then F e else 0).sum := by
    apply List.map_congr_left
    intro cid _
    unfold subgraphEdges
    rw [sum_map_filter]
  rw [hstep]
  rw [sum_map_sum_comm]
  apply congrArg
  apply List.map_congr_left
  intro e _
  have huniq : ∀ a b, ((c.get? e.1 == some a) && (c.get? e.2 == some a)) = true →
      ((c.get? e.1 == some b) && (c.get? e.2 == some b)) = true → a = b := by
    intro a b ha hb
    rw [Bool.and_eq_true] at ha hb
    have ha1 : c.get? e.1 = some a := by simpa using ha.1
    have hb1 : c.get? e.1 = some b := by simpa using hb.1
    exact Option.some.inj (ha1.symm.trans hb1)
  rw [uniq_sum _ (F e) huniq c.dedup c.nodup_dedup]
  rw [any_dedup_isInside]

lemma cutEdges_eq (g : Graph) (c : List ℕ) :
    cutEdges g c = g.edges.filter fun e => !(isInside c e) := by
  unfold cutEdges
  apply List.filter_congr
  intro e he
  cases h : isInside c e
  · have h1 : e ∉ insideEdges g c := fun hm => by
      have := (mem_insideEdges.mp hm).2
      rw [h] at this
      exact Bool.false_ne_true this
    have h2 : (e.2, e.1) ∉ insideEdges g c := fun hm => by
      have h' := (mem_insideEdges.mp hm).2
      rw [isInside_swap c e] at h'
      rw [h] at h'
      exact Bool.false_ne_true h'
    simp [h1, h2]
  · have h1 : e ∈ insideEdges g c := mem_insideEdges.mpr ⟨he, h⟩
    simp [h1]

lemma cut_sum (g : Graph) (c : List ℕ) (F : ℕ × ℕ → ℚ) :
    ((cutEdges g c).map F).sum
      = (g.edges.map fun e => if isInside c e then 0 else F e).sum := by
  rw [cutEdges_eq, sum_map_filter]
  apply congrArg
  apply List.map_congr_left
  intro e _
  cases h : isInside c e <;> simp [h]

/-- The sparsity score decomposes into one signed term per edge of the graph. -/
lemma sparsity_eq_sum (g : Graph) (c : List ℕ) :
    sparsity_score g c = (g.edges.map (edgeTerm g c)).sum := by
  unfold sparsity_score
  rw [inside_sum, cut_sum, ← sum_map_add]
  apply congrArg
  apply List.map_congr_left
  intro e _
  unfold edgeTerm
  cases h : isInside c e <;> simp [h]

lemma abs_sum_le_of_forall {α : Type} (l : List α) (f : α → ℚ) (q : ℚ)
    (h : ∀ e ∈ l, |f e| ≤ q) : |(l.map f).sum| ≤ (l.length : ℚ) * q := by
  induction l with
  | nil => simp
  | cons a t ih =>
    simp only [List.map_cons, List.sum_cons, List.length_cons]
    calc |f a + (t.map f).sum| ≤ |f a| + |(t.map f).sum| := abs_add _ _
      _ ≤ q + (t.length : ℚ) * q :=
          add_le_add (h a (by simp)) (ih fun e he => h e (by simp [he]))
      _ = ((t.length + 1 : ℕ) : ℚ) * q := by push_cast; ring

/-- C1: for every weighted graph with at least one edge and every cluster
assignment, `sparsity_score` lies in [-1, 1]; it is the sum of exactly one
term of magnitude `1/|E|` per edge, whose sign is + for a negative-weight
edge kept inside a cluster or a positive-weight cut edge, and - for a
positive-weight edge kept inside a cluster or a negative-weight cut edge. -/
theorem sparsity_score_bounded_per_edge (g : Graph) (c : List ℕ)
    (h : g.edges ≠ []) :
    (-1 ≤ sparsity_score g c ∧ sparsity_score g c ≤ 1) ∧
    sparsity_score g c = (g.edges.map (edgeTerm g c)).sum ∧
    ∀ e ∈ g.edges,
      |edgeTerm g c e| = 1 / (g.edges.length : ℚ) ∧
      (isInside c e = true → g.weight e.1 e.2 < 0 →
          edgeTerm g c e = 1 / (g.edges.length : ℚ)) ∧
      (isInside c e = true → 0 < g.weight e.1 e.2 →
          edgeTerm g c e = -(1 / (g.edges.length : ℚ))) ∧
      (isInside c e = false → 0 < g.weight e.1 e.2 →
          edgeTerm g c e = 1 / (g.edges.length : ℚ)) ∧
      (isInside c e = false → g.weight e.1 e.2 < 0 →
          edgeTerm g c e = -(1 / (g.edges.length : ℚ))) := by
  have hlen : 0 < g.edges.length := List.length_pos.mpr h
  have hq : (0 : ℚ) < (g.edges.length : ℚ) := by exact_mod_cast hlen
  have hcs : cutScore g = 1 / (g.edges.length : ℚ) := rfl
  have hcspos : 0 < cutScore g := by rw [hcs]; positivity
  have habs : ∀ e, |edgeTerm g c e| = cutScore g := by
    intro e
    unfold edgeTerm
    cases hI : isInside c e
    · by_cases hw : 0 < g.weight e.1 e.2 <;>
        simp [hw, abs_of_pos hcspos, abs_of_neg (neg_neg_of_pos hcspos)]
    · by_cases hw : g.weight e.1 e.2 < 0 <;>
        simp [hw, abs_of_pos hcspos, abs_of_neg (neg_neg_of_pos hcspos)]
  refine ⟨?_, sparsity_eq_sum g c, ?_⟩
  · have hb := abs_sum_le_of_forall g.edges (edgeTerm g c) (cutScore g)
      (fun e _ => le_of_eq (habs e))
    rw [hcs] at hb
    have : (g.edges.length : ℚ) * (1 / (g.edges.length : ℚ)) = 1 := by
      field_simp
    rw [this] at hb
    have hb' := abs_le.mp hb
    rw [sparsity_eq_sum g c]
    exact hb'
  · intro e he
    refine ⟨hcs ▸ habs e, ?_, ?_, ?_, ?_⟩
    · intro hI hw
      unfold edgeTerm
      rw [hI]
      simp [hw, hcs]
    · intro hI hw
      unfold edgeTerm
      rw [hI]
      have hw' : ¬ g.weight e.1 e.2 < 0 := not_lt.mpr (le_of_lt hw)
      simp [hw', hcs]
    · intro hI hw
      unfold edgeTerm
      rw [hI]
      simp [hw, hcs]
    · intro hI hw
      unfold edgeTerm
      rw [hI]
      have hw' : ¬ 0 < g.weight e.1 e.2 := not_lt.mpr (le_of_lt hw)
      simp [hw', hcs]

/-- A two-node graph with one positive edge, used as a concrete witness. -/
def gPosEdge : Graph := ⟨2, [(0, 1)], fun _ _ => 1⟩

theorem sparsity_score_bounded_per_edge_witness :
    gPosEdge.edges ≠ [] ∧
    (-1 ≤ sparsity_score gPosEdge [0, 1] ∧ sparsity_score gPosEdge [0, 1] ≤ 1) :=
  ⟨by decide, (sparsity_score_bounded_per_edge gPosEdge [0, 1] (by decide)).1⟩

/-- C9: both branches of `sparsity_score` treat a zero-weight edge by the
else-arm (the `< 0` test fails inside a cluster, the `> 0` test fails on a
cut), so such an edge always contributes `-1/|E|`, whatever the assignment. -/
theorem zero_weight_edge_always_subtracts (g : Graph) (c : List ℕ) (e : ℕ × ℕ)
    (_he : e ∈ g.edges) (hw : g.weight e.1 e.2 = 0) :
    (isInside c e = true → edgeTerm g c e = -(1 / (g.edges.length : ℚ))) ∧
    (isInside c e = false → edgeTerm g c e = -(1 / (g.edges.length : ℚ))) ∧
    edgeTerm g c e = -(1 / (g.edges.length : ℚ)) ∧
    sparsity_score g c = (g.edges.map (edgeTerm g c)).sum := by
  have hterm : edgeTerm g c e = -(1 / (g.edges.length : ℚ)) := by
    unfold edgeTerm
    have h1 : ¬ g.weight e.1 e.2 < 0 := by rw [hw]; exact lt_irrefl 0
    have h2 : ¬ 0 < g.weight e.1 e.2 := by rw [hw]; exact lt_irrefl 0
    cases hI : isInside c e <;> simp [h1, h2, cutScore]
  exact ⟨fun _ => hterm, fun _ => hterm, hterm, sparsity_eq_sum g c⟩

/-- A two-node graph whose single edge has weight exactly 0. -/
def gZeroEdge : Graph := ⟨2, [(0, 1)], fun _ _ => 0⟩

theorem zero_weight_edge_always_subtracts_witness :
    ((0, 1) ∈ gZeroEdge.edges ∧ gZeroEdge.weight 0 1 = 0) ∧
    edgeTerm gZeroEdge [0, 0] (0, 1) = -(1 / (gZeroEdge.edges.length : ℚ)) :=
  ⟨⟨by decide, by decide⟩,
    (zero_weight_edge_always_subtracts gZeroEdge [0, 0] (0, 1)
      (by decide) (by decide)).2.2.1⟩

/-- C7 (code-bug evidence): on a graph with zero edges the very first line of
`sparsity_score`, `cut_score = 1/len(graph.edges)`, divides by zero; the
fallible embedding returns `none` there instead of any defined trivial
result. -/
theorem sparsity_scoreChecked_empty_graph_none :
    sparsity_scoreChecked ⟨2, [], fun _ _ => 0⟩ [0, 1] = none := rfl

/-! ## cluster_hard (cluster.py lines 310-348)

The k-means collaborator is abstracted as a function from a cluster count to
the fitted label vector (scikit-learn's `KMeans(k).fit_predict` on the fixed
score matrix), and the random binary baseline `np.random.randint(2, ...)` is
passed in explicitly.  The result records the `topscore` finally handed to
`KMeans(topscore).fit_predict`, the labels it returns, and whether the
random-baseline warning branch was taken.  On a non-KMeans method the Python
function falls through to `return bestcluster` with `bestcluster` never
assigned, raising UnboundLocalError; that crash is modeled by `none`. -/

structure HardResult where
  topk : ℕ
  assignment : List ℕ
  randomWarning : Bool
deriving DecidableEq, Repr

def cluster_hard (g : Graph) (randomclust : List ℕ) (kmeans : ℕ → List ℕ)
    (max_clusters min_clusters : ℕ) (cluster : String) : Option HardResult :=
  let base := sparsity_score g randomclust
  if cluster == "KMeans" then
    let scores := base ::
      ((List.range' min_clusters (max_clusters + 1 - min_clusters)).map
        fun i => sparsity_score g (kmeans i))
    let topscore := argminIdx scores + min_clusters - 1
    some ⟨topscore, kmeans topscore, decide (topscore < min_clusters)⟩
  else
    none

/-- A k-means stub that groups both nodes together for every requested k. -/
def kmConst : ℕ → List ℕ := fun _ => [0, 0]

/-- A two-node graph with one negative edge (mutual exclusion). -/
def gNegEdge : Graph := ⟨2, [(0, 1)], fun _ _ => -1⟩

/-- C2 (code-bug evidence): with min_clusters = 2 and a random baseline that
attains the minimal sparsity score, `cluster_hard` takes the warning branch
but then fits `KMeans(topscore)` with `topscore = argmin + min_clusters - 1 =
1`, i.e. with `min_clusters - 1` clusters, not the `min_clusters` its own
warning message announces. -/
theorem cluster_hard_baseline_win_fits_min_minus_one :
    cluster_hard gNegEdge [0, 1] kmConst 3 2 "KMeans" =
      some ⟨1, [0, 0], true⟩ := by with_unfolding_all decide

/-- C4 (code-bug evidence): requesting any method other than KMeans prints
the warning and then crashes with UnboundLocalError at `return bestcluster`;
the model returns `none` rather than any degraded assignment. -/
theorem cluster_hard_non_kmeans_crashes :
    cluster_hard gNegEdge [0, 1] kmConst 3 2 "DBSCAN" = none := by with_unfolding_all decide

/-! ## central_edge (cluster.py lines 84-135)

Score matrices are lists of rows of rationals.  `np.percentile` is the
default linear-interpolation percentile of a flattened sorted copy, and
`np.argwhere(scoremat <= t)` / `>= t` lists matching positions in row-major
order. -/

/-- A score matrix: a list of rows. -/
abbrev Mat := List (List ℚ)

/-- Insertion of a value into an ascending list, for the sort behind
`np.percentile`. -/
def insertAsc (x : ℚ) : List ℚ → List ℚ
  | [] => [x]
  | y :: ys => if x ≤ y then x :: y :: ys else y :: insertAsc x ys

/-- Ascending insertion sort of the flattened matrix entries. -/
def sortQ (l : List ℚ) : List ℚ := l.foldr insertAsc []

/-- Modelled from the source's numpy collaborator: `np.percentile(a, q)` with
the default linear interpolation; sort ascending, take position
`q/100 * (n-1)` and interpolate between its floor and ceiling neighbours. -/
def npPercentile (l : List ℚ) (q : ℚ) : ℚ :=
  let s := sortQ l
  let n := s.length
  if n = 0 then 0
  else
    let pos : ℚ := q * ((n : ℚ) - 1) / 100
    let i : ℕ := (⌊pos⌋).toNat
    let frac : ℚ := pos - (⌊pos⌋ : ℤ)
    s.getD i 0 + frac * (s.getD (i + 1) (s.getD i 0) - s.getD i 0)

/-- Positions of the entries of one row satisfying `p`, starting at column
`j` of row `i`, in column order. -/
def argwhereRow (p : ℚ → Bool) (i : ℕ) : ℕ → List ℚ → List (ℕ × ℕ)
  | _, [] => []
  | j, x :: xs => (if p x then [(i, j)] else []) ++ argwhereRow p i (j + 1) xs

/-- `np.argwhere` on a matrix: matching positions in row-major order,
starting at row `i`. -/
def argwhereMat (p : ℚ → Bool) : ℕ → Mat → List (ℕ × ℕ)
  | _, [] => []
  | i, row :: rows => argwhereRow p i 0 row ++ argwhereMat p (i + 1) rows

/-- The flattened entries of a score matrix. -/
def flatEntries (m : Mat) : List ℚ := m.flatten

/-- `negthresh = np.percentile(scoremat, percentile)` (line 105). -/
def negThresh (m : Mat) (p : ℚ) : ℚ := npPercentile (flatEntries m) p

/-- `posthresh = np.percentile(scoremat, 100-percentile)` (line 106). -/
def posThresh (m : Mat) (p : ℚ) : ℚ := npPercentile (flatEntries m) (100 - p)

/-- `neghubs = np.argwhere(scoremat <= negthresh)` (line 107). -/
def neghubs (m : Mat) (p : ℚ) : List (ℕ × ℕ) :=
  argwhereMat (fun x => decide (x ≤ negThresh m p)) 0 m

/-- `poshubs = np.argwhere(scoremat >= posthresh)` (line 108). -/
def poshubs (m : Mat) (p : ℚ) : List (ℕ × ℕ) :=
  argwhereMat (fun x => decide (posThresh m p ≤ x)) 0 m

lemma argwhereRow_length (p : ℚ → Bool) (i : ℕ) (row : List ℚ) :
    ∀ j, (argwhereRow p i j row).length = (row.filter p).length := by
  induction row with
  | nil => intro j; rfl
  | cons x xs ih =>
    intro j
    by_cases h : p x <;>
      simp [argwhereRow, List.filter_cons, h, ih (j + 1)]

lemma argwhereMat_length (p : ℚ → Bool) (m : Mat) :
    ∀ i, (argwhereMat p i m).length = ((m.flatten).filter p).length := by
  induction m with
  | nil => intro i; rfl
  | cons row rows ih =>
    intro i
    simp [argwhereMat, List.filter_append, argwhereRow_length, ih (i + 1)]

lemma mem_argwhereRow (p : ℚ → Bool) (i a b : ℕ) (row : List ℚ) :
    ∀ j, ((a, b) ∈ argwhereRow p i j row ↔
      a = i ∧ ∃ k, k < row.length ∧ b = j + k ∧ p (row.getD k 0) = true) := by
  induction row with
  | nil => intro j; simp [argwhereRow]
  | cons x xs ih =>
    intro j
    constructor
    · intro h
      rcases List.mem_append.mp h with h | h
      · by_cases hp : p x
        · rw [hp] at h
          simp at h
          exact ⟨h.1, 0, by simp, by simp [h.2], by simp [hp]⟩
        · simp [Bool.eq_false_iff.mpr hp] at h
      · rcases (ih (j + 1)).mp h with ⟨ha, k, hk, hb, hpk⟩
        exact ⟨ha, k + 1, by simpa using hk, by omega, by simpa using hpk⟩
    · rintro ⟨rfl, k, hk, rfl, hpk⟩
      apply List.mem_append.mpr
      cases k with
      | zero =>
        left
        simp at hpk
        simp [hpk]
      | succ k' =>
        right
        apply (ih (j + 1)).mpr
        exact ⟨rfl, k', by simp at hk; omega, by omega, by simpa using hpk⟩

lemma mem_argwhereMat (p : ℚ → Bool) (a b : ℕ) (m : Mat) :
    ∀ i, ((a, b) ∈ argwhereMat p i m ↔
      ∃ r, r < m.length ∧ a = i + r ∧ b < (m.getD r []).length ∧
        p ((m.getD r []).getD b 0) = true) := by
  induction m with
  | nil => intro i; simp [argwhereMat]
  | cons row rows ih =>
    intro i
    constructor
    · intro h
      rcases List.mem_append.mp h with h | h
      · rcases (mem_argwhereRow p i a b row 0).mp h with ⟨ha, k, hk, hb, hpk⟩
        exact ⟨0, by simp, by omega, by simpa [hb] using hk, by
          simpa [show b = k by omega] using hpk⟩
      · rcases (ih (i + 1)).mp h with ⟨r, hr, ha, hb, hpk⟩
        exact ⟨r + 1, by simpa using hr, by omega, by simpa using hb,
          by simpa using hpk⟩
    · rintro ⟨r, hr, rfl, hb, hpk⟩
      apply List.mem_append.mpr
      cases r with
      | zero =>
        left
        apply (mem_argwhereRow p i (i + 0) b row 0).mpr
        exact ⟨by omega, b, by simpa using hb, by omega, by simpa using hpk⟩
      | succ r' =>
        right
        apply (ih (i + 1)).mpr
        exact ⟨r', by simpa using hr, by omega, by simpa using hb,
          by simpa using hpk⟩

/-- C6: in `central_edge` the negative threshold is the `percentile`-th
percentile of the score matrix, the positive threshold the
`(100 - percentile)`-th; the flagged negative-hub positions are exactly the
entries at or below the negative threshold and the positive-hub positions
exactly those at or above the positive threshold, so the flagged counts
equal the counts of entries at or beyond the two thresholds. -/
theorem central_edge_percentile_hubs (m : Mat) (p : ℚ) :
    negThresh m p = npPercentile (flatEntries m) p ∧
    posThresh m p = npPercentile (flatEntries m) (100 - p) ∧
    (neghubs m p).length
      = ((flatEntries m).filter fun x => decide (x ≤ negThresh m p)).length ∧
    (poshubs m p).length
      = ((flatEntries m).filter fun x => decide (posThresh m p ≤ x)).length ∧
    (∀ a b : ℕ, (a, b) ∈ neghubs m p ↔
      a < m.length ∧ b < (m.getD a []).length ∧
        (m.getD a []).getD b 0 ≤ negThresh m p) ∧
    (∀ a b : ℕ, (a, b) ∈ poshubs m p ↔
      a < m.length ∧ b < (m.getD a []).length ∧
        posThresh m p ≤ (m.getD a []).getD b 0) := by
  refine ⟨rfl, rfl, argwhereMat_length _ m 0, argwhereMat_length _ m 0, ?_, ?_⟩
  · intro a b
    rw [neghubs, mem_argwhereMat]
    constructor
    · rintro ⟨r, hr, ha, hb, hp⟩
      subst ha
      simp only [Nat.zero_add] at *
      exact ⟨hr, hb, of_decide_eq_true hp⟩
    · rintro ⟨ha, hb, hp⟩
      exact ⟨a, ha, by omega, hb, decide_eq_true hp⟩
  · intro a b
    rw [poshubs, mem_argwhereMat]
    constructor
    · rintro ⟨r, hr, ha, hb, hp⟩
      subst ha
      simp only [Nat.zero_add] at *
      exact ⟨hr, hb, of_decide_eq_true hp⟩
    · rintro ⟨ha, hb, hp⟩
      exact ⟨a, ha, by omega, hb, decide_eq_true hp⟩

/-! ## Diffusion engine (spec-modelled) and central_edge -/

/-- Dot product of two equal-length rows. -/
def dotQ (a b : List ℚ) : ℚ := ((a.zip b).map fun v => v.1 * v.2).sum

/-- Column `j` of a matrix. -/
def colAt (m : Mat) (j : ℕ) : List ℚ := m.map fun row => row.getD j 0

/-- Square-matrix product, row by row. -/
def matMul (a b : Mat) : Mat :=
  a.map fun row => (List.range (b.headD []).length).map fun j => dotQ row (colAt b j)

/-- Largest absolute value of any entry (0 for an all-empty matrix). -/
def maxAbs (m : Mat) : ℚ := ((m.flatten).map fun x => |x|).foldl max 0

/-- Division of every entry by the maximum absolute value; an all-zero
matrix is left unchanged (the spec's divide-by-zero short-circuit). -/
def normalizeMat (m : Mat) : Mat :=
  let s := maxAbs m
  if s = 0 then m else m.map fun row => row.map fun x => x / s

/-- Elementwise reciprocal accumulation `x + 1/x`, leaving exact zeros as
zero (spec section 4.1 step 3). -/
def recipAdd (m : Mat) : Mat :=
  m.map fun row => row.map fun x => if x = 0 then 0 else x + 1 / x

/-- One diffusion iteration: square, optionally normalize, reciprocal-add,
optionally normalize (spec section 4.1 steps 1-4). -/
def diffusionStep (norm : Bool) (m : Mat) : Mat :=
  let m2 := matMul m m
  let m3 := if norm then normalizeMat m2 else m2
  let m4 := recipAdd m3
  if norm then normalizeMat m4 else m4

/-- Sum of absolute entry differences, the error magnitude of spec section
4.1 step 5. -/
def errNorm (a b : Mat) : ℚ :=
  (((a.flatten).zip (b.flatten)).map fun v => |v.1 - v.2|).sum

/-- Modelled from the spec: the loop of the diffusion engine (`diffusion` in
manta/perms.py, which is not under src/).  It iterates `diffusionStep` up to
the iteration cap and stops early when the fractional decrease of the error
norm between consecutive iterations falls below `limit` (spec section 4.1
steps 5-6). -/
def diffusionGo (norm : Bool) (limit : ℚ) : ℕ → Mat → Option ℚ → Mat
  | 0, m, _ => m
  | k + 1, m, prev =>
    let m2 := diffusionStep norm m
    let e := errNorm m2 m
    match prev with
    | some pe =>
      if pe ≠ 0 ∧ (pe - e) / pe < limit then m2
      else diffusionGo norm limit k m2 (some e)
    | none => diffusionGo norm limit k m2 (some e)

/-- Modelled from the spec: `diffusion(graph, limit, iterations, norm)` of
manta/perms.py, reduced to its score-matrix output. -/
def diffusionMat (m : Mat) (limit : ℚ) (iterations : ℕ) (norm : Bool) : Mat :=
  diffusionGo norm limit iterations m none

/-- The weighted adjacency matrix of a graph, with nodes as indices. -/
def adjMatrix (g : Graph) : Mat :=
  (List.range g.n).map fun i => (List.range g.n).map fun j =>
    if (i, j) ∈ g.edges then g.weight i j
    else if (j, i) ∈ g.edges then g.weight j i else 0

/-- The edge attributes `central_edge` writes: the `hub` labels (the dict
writes of lines 121-132, negative hubs first, then positive hubs, a later
write to the same pair winning as in a Python dict) and the `reliability
score` values taken from the permutation collaborator when permutation
testing is on. -/
structure EdgeLabeling where
  hub : List ((ℕ × ℕ) × String)
  reliability : List ((ℕ × ℕ) × ℚ)

/-- `central_edge` (cluster.py lines 84-135).  The score matrix is the
3-iteration non-normalized diffusion of the adjacency matrix; the
`perm_graph` collaborator (manta/perms.py, not under src/) is abstracted as
`permOracle`, the per-edge reliability score it returns, and is consulted
only when `permutations > 0`. -/
def central_edge (permOracle : ℕ × ℕ → ℚ) (g : Graph) (limit percentile : ℚ)
    (permutations : ℕ) : EdgeLabeling :=
  let scoremat := diffusionMat (adjMatrix g) limit 3 false
  let nh := neghubs scoremat percentile
  let ph := poshubs scoremat percentile
  { hub := (nh.map fun e => (e, "negative hub"))
        ++ (ph.map fun e => (e, "positive hub")),
    reliability :=
      if 0 < permutations then
        (nh.map fun e => (e, permOracle e)) ++ (ph.map fun e => (e, permOracle e))
      else [] }

/-- C8: with `permutations = 0` the result of `central_edge` does not depend
on the permutation collaborator at all — the non-permutation path consumes
no randomness, so two calls with identical parameters assign identical hub
labels. -/
theorem central_edge_no_permutation_deterministic
    (o₁ o₂ : ℕ × ℕ → ℚ) (g : Graph) (limit percentile : ℚ) :
    (central_edge o₁ g limit percentile 0).hub
        = (central_edge o₂ g limit percentile 0).hub ∧
    central_edge o₁ g limit percentile 0 = central_edge o₂ g limit percentile 0 :=
  ⟨rfl, rfl⟩

/-! ## cluster_fuzzy (cluster.py lines 230-306)

The k-means collaborator appears twice per snapshot: `fit_predict` for label
vectors and `fit(...).cluster_centers_` for centroid lists; both are
abstracted as functions of the cluster count and the score matrix.
scikit-learn's KMeans returns labels below k and exactly k centroids, so the
dict lookups of lines 294 and 300 never fail in operation; the model uses
total default-valued lookups at those spots.  The two crashes the code can
actually hit — `separating_iters[-1]` on an empty array (line 266) and
`centroids[-1]` on an empty list (line 285, exactly one separating
snapshot) — are modeled by `none`. -/

/-- The k-means collaborator of the fuzzy path. -/
structure KMeansModel where
  predict : ℕ → Mat → List ℕ
  centers : ℕ → Mat → List (List ℚ)

/-- Everything `cluster_fuzzy` consumes: the graph, the k-means
collaborator, the diffusion snapshot sequence, and the cluster-count
range. -/
structure FuzzyCtx where
  g : Graph
  km : KMeansModel
  diffs : List Mat
  minc : ℕ
  maxc : ℕ

/-- The sparsity scores of snapshot `j` across k = minc..maxc
(lines 250-253). -/
def fuzzyScores (ctx : FuzzyCtx) (j : ℕ) : List ℚ :=
  (List.range' ctx.minc (ctx.maxc + 1 - ctx.minc)).map
    fun i => sparsity_score ctx.g (ctx.km.predict i (ctx.diffs.getD j []))

/-- `topscore = np.argmin(scores) + min_clusters` for snapshot `j`
(line 254). -/
def fuzzyTop (ctx : FuzzyCtx) (j : ℕ) : ℕ := argminIdx (fuzzyScores ctx j) + ctx.minc

/-- The best (lowest) sparsity score of snapshot `j` (line 258). -/
def fuzzyDif (ctx : FuzzyCtx) (j : ℕ) : ℚ := listMin (fuzzyScores ctx j)

/-- `separating_iters = np.where(np.array(difscores) < -0.5)[0]`
(line 260). -/
def separatingIters (ctx : FuzzyCtx) : List ℕ :=
  (List.range ctx.diffs.length).filter fun j => decide (fuzzyDif ctx j < -(1/2 : ℚ))

/-- `separating_iters[1:]`, the snapshots actually clustered (line 272
skips the first separating iteration). -/
def sepTail (ctx : FuzzyCtx) : List ℕ := (separatingIters ctx).drop 1

/-- `sep_clusters`: the fit_predict labels of every separating snapshot
after the first (line 275). -/
def sepClusters (ctx : FuzzyCtx) : List (List ℕ) :=
  (sepTail ctx).map fun j => ctx.km.predict (fuzzyTop ctx j) (ctx.diffs.getD j [])

/-- `centroids`: the fitted centroid sets of the same snapshots
(lines 276-277). -/
def sepCentroids (ctx : FuzzyCtx) : List (List (List ℚ)) :=
  (sepTail ctx).map fun j => ctx.km.centers (fuzzyTop ctx j) (ctx.diffs.getD j [])

/-- `sep_clusters[-1]`, the last separating snapshot's clustering — the
authoritative assignment. -/
def lastClusters (ctx : FuzzyCtx) : List ℕ := (sepClusters ctx).getLastD []

/-- `core_centers = centroids[-1]` (line 285). -/
def coreCenters (ctx : FuzzyCtx) : List (List ℚ) := (sepCentroids ctx).getLastD []

/-- `np.mean(iter - core_centers[n])`: mean of the elementwise difference of
two centroids. -/
def meanDiff (a b : List ℚ) : ℚ :=
  ((a.zip b).map fun v => v.1 - v.2).sum / (a.length : ℚ)

/-- `diff.index(min(diff))` of line 294: the core centroid whose mean
difference to `v` is smallest in absolute value, first index on ties. -/
def bestMatch (core : List (List ℚ)) (v : List ℚ) : ℕ :=
  argminIdx (core.map fun cn => |meanDiff v cn|)

/-- `clusdict[key][j]`: the clusters of earlier snapshot `j` matched to the
final cluster `key` by the loop of lines 286-294. -/
def clusdictList (core : List (List ℚ)) (cents : List (List ℚ)) (key : ℕ) : List ℕ :=
  (List.range cents.length).filter fun e => bestMatch core (cents.getD e [])  == key

/-- The membership test of line 300: in earlier snapshot `j`, node `i`'s
cluster is matched to its final-snapshot cluster. -/
abbrev fuzzyCond (ctx : FuzzyCtx) (i j : ℕ) : Prop :=
  ((sepClusters ctx).getD j []).getD i 0 ∈
    clusdictList (coreCenters ctx) ((sepCentroids ctx).getD j []) ((lastClusters ctx).getD i 0)

/-- `clusprobs[i]` accumulated by the loop of lines 297-301: one unit of
`1/(len(sep_clusters)-1)` per matching earlier snapshot. -/
def clusProb (ctx : FuzzyCtx) (i : ℕ) : ℚ :=
  ((List.range ((sepClusters ctx).length - 1)).map fun j =>
    if fuzzyCond ctx i j then 1 / (((sepClusters ctx).length : ℚ) - 1) else 0).sum

/-- The number of earlier separating snapshots (first and last excluded)
whose assignment of node `i` maps to its final cluster. -/
def stabilityMatches (ctx : FuzzyCtx) (i : ℕ) : ℕ :=
  ((List.range ((sepClusters ctx).length - 1)).filter
    fun j => decide (fuzzyCond ctx i j)).length

/-- The stability fraction of node `i`: matching earlier snapshots over all
earlier snapshots. -/
def stabilityFraction (ctx : FuzzyCtx) (i : ℕ) : ℚ :=
  (stabilityMatches ctx i : ℚ) / (((sepClusters ctx).length : ℚ) - 1)

/-- `cluster_fuzzy` (cluster.py lines 230-306): `none` models the
exceptions Python raises (IndexError at line 266 with no separating
snapshot, IndexError at line 285 with exactly one, ValueError in the
per-snapshot scoring loop for a non-KMeans method). -/
def cluster_fuzzy (ctx : FuzzyCtx) (cluster : String) : Option (List ℕ) :=
  if cluster == "KMeans" then
    if separatingIters ctx = [] then none
    else if sepCentroids ctx = [] then none
    else some ((lastClusters ctx).mapIdx fun i x =>
      if clusProb ctx i < 1/2 then 100 else x)
  else none

lemma sum_if_count {p : ℕ → Prop} [DecidablePred p] (q : ℚ) (l : List ℕ) :
    (l.map fun x => if p x then q else 0).sum
      = ((l.filter fun x => decide (p x)).length : ℚ) * q := by
  induction l with
  | nil => simp
  | cons a t ih =>
    by_cases h : p a
    · simp [List.filter_cons, h, ih]
      ring
    · simp [List.filter_cons, h, ih]

lemma clusProb_eq_stabilityFraction (ctx : FuzzyCtx) (i : ℕ) :
    clusProb ctx i = stabilityFraction ctx i := by
  unfold clusProb stabilityFraction stabilityMatches
  rw [sum_if_count]
  rw [mul_one_div]

lemma sepClusters_length (ctx : FuzzyCtx) :
    (sepClusters ctx).length = (separatingIters ctx).length - 1 := by
  simp [sepClusters, sepTail]

lemma sepCentroids_length (ctx : FuzzyCtx) :
    (sepCentroids ctx).length = (separatingIters ctx).length - 1 := by
  simp [sepCentroids, sepTail]

/-- C5: with at least two separating snapshots, `cluster_fuzzy` returns the
last separating snapshot's k-means clustering, except that every node whose
stability fraction across the earlier separating snapshots (first and last
excluded) is below 0.5 has its label replaced by the sentinel 100. -/
theorem cluster_fuzzy_last_snapshot_with_sentinel (ctx : FuzzyCtx)
    (hsep : 2 ≤ (separatingIters ctx).length) :
    cluster_fuzzy ctx "KMeans" =
      some ((lastClusters ctx).mapIdx fun i x =>
        if stabilityFraction ctx i < 1/2 then 100 else x) := by
  have hne : ¬ separatingIters ctx = [] := by
    intro h
    rw [h] at hsep
    simp at hsep
  have hct : ¬ sepCentroids ctx = [] := by
    intro h
    have := sepCentroids_length ctx
    rw [h] at this
    simp at this
    omega
  have hfun : (fun i x => if clusProb ctx i < 1/2 then (100 : ℕ) else x)
      = fun i x => if stabilityFraction ctx i < 1/2 then (100 : ℕ) else x := by
    funext i x
    rw [clusProb_eq_stabilityFraction]
  unfold cluster_fuzzy
  rw [if_pos (by rfl)]
  rw [if_neg hne, if_neg hct, hfun]

/-- The all-zero 2x2 score matrix used by the concrete fuzzy witnesses. -/
def matW : Mat := [[0, 0], [0, 0]]

/-- A k-means stub: both nodes always land in cluster 0, and `centers k`
returns k copies of the origin. -/
def kmW : KMeansModel := ⟨fun _ _ => [0, 0], fun k _ => List.replicate k [0, 0]⟩

/-- Three snapshots, all separating (the single positive edge kept inside
one cluster scores -1 < -0.5 for every snapshot). -/
def ctxW3 : FuzzyCtx := ⟨gPosEdge, kmW, [matW, matW, matW], 1, 1⟩

theorem cluster_fuzzy_last_snapshot_with_sentinel_witness :
    2 ≤ (separatingIters ctxW3).length ∧
    cluster_fuzzy ctxW3 "KMeans" =
      some ((lastClusters ctxW3).mapIdx fun i x =>
        if stabilityFraction ctxW3 i < 1/2 then 100 else x) :=
  ⟨by with_unfolding_all decide,
    cluster_fuzzy_last_snapshot_with_sentinel ctxW3 (by with_unfolding_all decide)⟩

lemma mapIdx_const_hundred (l : List ℕ) :
    (l.mapIdx fun _ _ => (100 : ℕ)) = List.replicate l.length 100 := by
  induction l with
  | nil => rfl
  | cons a t ih => simpa [List.mapIdx_cons, List.replicate_succ] using ih

/-- C10: with exactly two separating snapshots the stability loop ranges
over zero earlier snapshots, every node's stability fraction is 0, and
every node of the returned assignment carries the sentinel 100. -/
theorem cluster_fuzzy_two_separating_all_sentinel (ctx : FuzzyCtx)
    (h2 : (separatingIters ctx).length = 2) :
    (∀ i, stabilityFraction ctx i = 0) ∧
    cluster_fuzzy ctx "KMeans" =
      some (List.replicate (lastClusters ctx).length 100) := by
  have hs : (sepClusters ctx).length = 1 := by rw [sepClusters_length, h2]
  have hfrac : ∀ i, stabilityFraction ctx i = 0 := by
    intro i
    unfold stabilityFraction stabilityMatches
    rw [hs]
    simp
  refine ⟨hfrac, ?_⟩
  have hne : ¬ separatingIters ctx = [] := by
    intro h
    rw [h] at h2
    simp at h2
  have hct : ¬ sepCentroids ctx = [] := by
    intro h
    have := sepCentroids_length ctx
    rw [h, h2] at this
    simp at this
  have hprob : ∀ i, clusProb ctx i = 0 := by
    intro i
    rw [clusProb_eq_stabilityFraction]
    exact hfrac i
  unfold cluster_fuzzy
  rw [if_pos (by rfl)]
  rw [if_neg hne, if_neg hct]
  have hbranch : (fun i x => if clusProb ctx i < 1/2 then (100 : ℕ) else x)
      = fun _ _ => (100 : ℕ) := by
    funext i x
    rw [hprob i]
    norm_num
  rw [hbranch, mapIdx_const_hundred]

/-- Two snapshots, both separating. -/
def ctxW2 : FuzzyCtx := ⟨gPosEdge, kmW, [matW, matW], 1, 1⟩

theorem cluster_fuzzy_two_separating_all_sentinel_witness :
    (separatingIters ctxW2).length = 2 ∧
    cluster_fuzzy ctxW2 "KMeans" =
      some (List.replicate (lastClusters ctxW2).length 100) :=
  ⟨by with_unfolding_all decide,
    (cluster_fuzzy_two_separating_all_sentinel ctxW2 (by with_unfolding_all decide)).2⟩

/-- A k-means stub that always cuts the positive edge, so no snapshot's best
score clears the -0.5 threshold. -/
def kmSplit : KMeansModel := ⟨fun _ _ => [0, 1], fun k _ => List.replicate k [0, 0]⟩

/-- Two snapshots, none separating. -/
def ctxNoSep : FuzzyCtx := ⟨gPosEdge, kmSplit, [matW, matW], 2, 2⟩

/-- C3 (code-bug evidence): when no snapshot's best sparsity score is below
-0.5, `separating_iters` is empty and line 266 `separating_iters[-1]` raises
an uncaught IndexError; the model returns `none` instead of any reportable
no-stable-clustering condition or any snapshot's assignment. -/
theorem cluster_fuzzy_no_separating_crashes :
    cluster_fuzzy ctxNoSep "KMeans" = none := by with_unfolding_all decide

end Manta
